import Mathlib

/-!  Verification of the diphone speech synthesiser (synth.py).

The Python source is embedded shallowly:

*  numpy sample arrays become `List Int` (samples are signed integer
   amplitudes).  Python `int(a * (i / n))` — the product of an integer
   sample with the exact rational `i / n`, truncated toward zero — is
   modelled by `Int.tdiv (a * i) n` (T-division).  The float factors
   `i / n` in the source are treated as exact rationals.
*  the diphone inventory `self.diphones` becomes a function
   `String → Option (List Int)`.  Because the slice assignments in
   `smooth_end` / `smooth_beg` write through numpy views, they mutate the
   arrays stored in the inventory in place; the crossfade path therefore
   threads the inventory as explicit state and returns the updated
   inventory together with the output buffer.
*  Python exceptions become `Option` / `Except` failures: an uncaught
   IndexError is `none`, a `KeyError` / `AttributeError` inside text
   normalisation is an `Except.error`.
-/

namespace SynthPy

/-- Sample buffers: numpy arrays of signed integer amplitudes. -/
abbrev Samples := List Int

/-- The diphone inventory `self.diphones`: unit name to loaded audio data. -/
abbrev Inv := String → Option Samples

/-- `affected_values = int(self.rate / 100)` (synth.py line 86); `int` of a
positive float quotient truncates, i.e. floor division. -/
def affected_values (rate : Nat) : Nat := rate / 100

/-- Python `int(a * (i / n))`: integer sample `a` times the exact rational
`i / n`, truncated toward zero (`Int.tdiv` is T-division). -/
def truncScale (a : Int) (i n : Nat) : Int := Int.tdiv (a * (i : Int)) (n : Int)

/-- The pure value produced by `Synth.smooth_end` (lines 45-58): the last
`n` samples are zipped with `reversed([i / n for i in range(n)])` and each
product is truncated; the leading samples are kept.  (The source writes the
updated values back through a numpy view, mutating the array in place; the
state-threading below accounts for that.) -/
def tailRampF (a : Samples) (n : Nat) : Samples :=
  a.take (a.length - n) ++
    ((a.drop (a.length - n)).zip (List.range n).reverse).map (fun p => truncScale p.1 p.2 n)

/-- The pure value produced by `Synth.smooth_beg` (lines 60-72): the first
`n` samples are zipped with `[i / n for i in range(n)]`. -/
def headRampF (a : Samples) (n : Nat) : Samples :=
  ((a.take n).zip (List.range n)).map (fun p => truncScale p.1 p.2 n) ++ a.drop n

/-- `Synth.smooth_end`: when the array holds fewer than `n` samples the
write-back loop `diphone_array[-n:][i] = values_updated[i]` raises an
uncaught IndexError (modelled `none`); otherwise it returns the ramped
array.  For `n = 0` every loop is empty and the array is returned
unchanged, which `tailRampF` also does. -/
def smooth_end (a : Samples) (n : Nat) : Option Samples :=
  if a.length < n then none else some (tailRampF a n)

/-- `Synth.smooth_beg`, same failure condition as `smooth_end`. -/
def smooth_beg (a : Samples) (n : Nat) : Option Samples :=
  if a.length < n then none else some (headRampF a n)

/-- One phone as prepared by `phones_to_diphones` (lines 149-155):
lowercased, with every decimal digit removed (`re.sub('[0-9]', '', …)`). -/
def cleanPhone (p : String) : String :=
  String.mk ((p.toList.map Char.toLower).filter (fun c => ¬ c.isDigit))

/-- The indexed loop of lines 160-164: emit `fil[i] + '-' + fil[i+1] + '.wav'`
for every `i`, stopping at the IndexError on the last index — i.e. one key
per adjacent pair. -/
def pairKeys : List String → List String
  | a :: b :: rest => (a ++ "-" ++ b ++ ".wav") :: pairKeys (b :: rest)
  | _ => []

/-- `Synth.phones_to_diphones` (lines 139-166): lowercase, strip digits,
pad with `"pau"` on both sides, emit adjacent pairs. -/
def phones_to_diphones (phones : List String) : List String :=
  pairKeys ("pau" :: phones.map cleanPhone ++ ["pau"])

/-- Pointwise inventory update: the in-place mutation of the array stored
under key `k`. -/
def update (inv : Inv) (k : String) (v : Samples) : Inv :=
  fun q => if q = k then some v else inv q

/-- Apply an in-place smoothing operation `f` to the array stored under `k`.
`none` when `f` raises.  (`k` is always a present key at every call site,
since it came from the resolution loop.) -/
def rampAt (f : Samples → Nat → Option Samples) (n : Nat) (inv : Inv) (k : String) :
    Option Inv :=
  match inv k with
  | some a => (f a n).map (update inv k)
  | none => none

/-- The resolution loop of `Synth.synthesise` (lines 87-95) in crossfade
mode: `list_for_smoothing` collects references to the inventory entries of
the keys that are present; missing keys are reported and skipped.  We keep
the keys, since the list entries alias the stored arrays. -/
def resolvedKeys (inv : Inv) (phones : List String) : List String :=
  (phones_to_diphones phones).filter (fun k => (inv k).isSome)

/-- Lines 100-103: each middle unit is head-ramped, then tail-ramped, in
place. -/
def smoothMids (n : Nat) : Inv → List String → Option Inv
  | inv, [] => some inv
  | inv, k :: ks => do
      let i1 ← rampAt smooth_beg n inv k
      let i2 ← rampAt smooth_end n i1 k
      smoothMids n i2 ks

/-- Lines 99-104, the whole smoothing phase: tail-ramp the first resolved
unit, head+tail-ramp every middle one, head-ramp the last one
(`list_for_smoothing[-1]`, which for a single resolved unit is the first
unit again).  An empty resolved list raises IndexError at
`list_for_smoothing[0]`. -/
def smoothPhase (n : Nat) (inv : Inv) : List String → Option Inv
  | [] => none
  | k0 :: rest => do
      let i1 ← rampAt smooth_end n inv k0
      let i2 ← smoothMids n i1 rest.dropLast
      rampAt smooth_beg n i2 (rest.getLastD k0)

/-- Lines 106-113 (`val_to_add`): for each adjacent pair of smoothed units,
`np.add` of the last `n` samples of the earlier and the first `n` samples
of the later.  (After a successful smoothing phase every unit has at least
`n` samples, so the two slices have equal shape `n`.)  Slice model: for
`n = 0` (rate < 100) Python's `[-0:]` is the *whole* array, not its last 0
samples, and `np.add(whole, empty)` raises an uncaught broadcast
ValueError; this `drop (length - n)` model is therefore faithful only for
`n ≥ 1`, and every theorem below that reaches this code path carries a
`100 ≤ rate` hypothesis. -/
def overlapSegs (n : Nat) (dip : List Samples) : List Samples :=
  List.zipWith (fun a b => List.zipWith (fun x y => x + y) (a.drop (a.length - n)) (b.take n))
    dip dip.tail

/-- Lines 115-126 (`dip_arr`): the first unit without its last `n` samples,
each middle unit without its first and last `n` (`u[n:-n]`, empty when the
unit is shorter than `2n`, as for Python slices), the last unit without its
first `n`.  Python's negative-index clamping agrees with truncated `Nat`
subtraction for `n ≥ 1`; for `n = 0` Python's `a[:-0]` and `a[n:-0]` are
empty where `take (length - 0)` keeps the array, so this model too is
faithful only for `n ≥ 1` (see `overlapSegs` — at `n = 0` the program has
already raised before the splits). -/
def trimSegs (n : Nat) : List Samples → List Samples
  | [] => []
  | d0 :: rest =>
      d0.take (d0.length - n) ::
        (rest.dropLast.map (fun d => (d.drop n).take (d.length - 2 * n)) ++
          [(rest.getLastD d0).drop n])

/-- Lines 128-131: `dip_arr[0]`, then alternately one overlap segment and
the next trimmed unit. -/
def assembleOverlapAdd (n : Nat) (dip : List Samples) : Samples :=
  match trimSegs n dip with
  | [] => []
  | t0 :: ts => t0 ++ (List.zipWith (fun v t => v ++ t) (overlapSegs n dip) ts).flatten

/-- Plain-mode `Synth.synthesise` (lines 87-95, `smooth_concat=False`):
append the samples of every present key; missing keys are reported and
skipped.  Never fails. -/
def synthesise_plain (inv : Inv) (phones : List String) : Samples :=
  (phones_to_diphones phones).foldl
    (fun acc k => match inv k with
      | some u => acc ++ u
      | none => acc) []

/-- Crossfade-mode `Synth.synthesise` (lines 97-131): resolve the keys,
run the in-place smoothing phase (mutating the inventory), then read the
`smooth_dip` references — first key, middle keys, last key, which for a
single resolved unit reads the same array twice — and assemble.  Returns
the output buffer together with the mutated inventory; `none` models an
uncaught IndexError. -/
def synthesise_smooth (inv : Inv) (phones : List String) (rate : Nat) :
    Option (Samples × Inv) :=
  let n := affected_values rate
  match resolvedKeys inv phones with
  | [] => none
  | k0 :: rest =>
      (smoothPhase n inv (k0 :: rest)).map (fun inv2 =>
        let dip := ((inv2 k0).getD []) ::
          (rest.dropLast.map (fun k => (inv2 k).getD []) ++
            [((inv2 (rest.getLastD k0)).getD [])])
        (assembleOverlapAdd n dip, inv2))

/-- The `reverse` argument of `Synth.synthesise` / `Utterance.get_phone_seq`
(`None`, `'words'`, `'phones'` or `'signal'`). -/
inductive RMode | noRev | words | phones | signal
deriving DecidableEq

/-- `Synth.synthesise` (lines 74-137): plain or crossfade concatenation,
then a whole-signal flip when `reverse == 'signal'`. -/
def synthesise (inv : Inv) (phones : List String) (rate : Nat)
    (reverse : RMode) (smooth_concat : Bool) : Option (Samples × Inv) :=
  if smooth_concat then
    (synthesise_smooth inv phones rate).map
      (fun p => (if reverse = RMode.signal then p.1.reverse else p.1, p.2))
  else
    some ((if reverse = RMode.signal then (synthesise_plain inv phones).reverse
           else synthesise_plain inv phones), inv)

/-- Ramping of a unit sequence as §4.5 of the design describes it: tail
ramp on every unit except the last, head ramp on every unit except the
first.  A middle unit is head-ramped then tail-ramped, the order the source
uses; for units of at least `2n` samples the two ramps touch disjoint
regions, so the order is immaterial. -/
def specRamp (n : Nat) : List Samples → List Samples
  | [] => []
  | [u] => [u]
  | u0 :: rest =>
      tailRampF u0 n ::
        (rest.dropLast.map (fun u => tailRampF (headRampF u n) n) ++
          [headRampF (rest.getLastD u0) n])

/-- The output of a crossfade call whose key sequence resolves to the single
unit `u`: both ramps are applied to the one stored array, and the doubled
`smooth_dip` list then overlaps the array with itself. -/
def c2SingleOut (u : Samples) (n : Nat) : Samples :=
  (headRampF (tailRampF u n) n).take ((headRampF (tailRampF u n) n).length - n) ++
    (List.zipWith (fun x y => x + y)
      ((headRampF (tailRampF u n) n).drop ((headRampF (tailRampF u n) n).length - n))
      ((headRampF (tailRampF u n) n).take n) ++
      (headRampF (tailRampF u n) n).drop n)

/-- Python exceptions raised by the `Utterance` methods. -/
inductive SynthErr
  | keyErr
  | attrErr
  | idxErr
  | loopLimit
deriving DecidableEq

/-- Decidable equality for `Except` results (not provided by the core
library), so that concrete normalisation runs can be checked by `decide`. -/
instance {ε α : Type} [DecidableEq ε] [DecidableEq α] : DecidableEq (Except ε α)
  | .error e, .error f =>
      if h : e = f then .isTrue (by rw [h])
      else .isFalse (fun hc => by cases hc; exact h rfl)
  | .error _, .ok _ => .isFalse (fun hc => by cases hc)
  | .ok _, .error _ => .isFalse (fun hc => by cases hc)
  | .ok x, .ok y =>
      if h : x = y then .isTrue (by rw [h])
      else .isFalse (fun hc => by cases hc; exact h rfl)

/-- The `dys` table of `Utterance.normalise_dates` (lines 199-206). -/
def dys : String → Option String
  | "1" => some "first"
  | "2" => some "second"
  | "3" => some "third"
  | "4" => some "fourth"
  | "5" => some "fifth"
  | "6" => some "sixth"
  | "7" => some "seventh"
  | "8" => some "eighth"
  | "9" => some "ninth"
  | "10" => some "tenth"
  | "11" => some "eleventh"
  | "12" => some "twelfth"
  | "13" => some "thirteenth"
  | "14" => some "fourteenth"
  | "15" => some "fifteenth"
  | "16" => some "sixteenth"
  | "17" => some "seventeenth"
  | "18" => some "eighteenth"
  | "19" => some "nineteenth"
  | "20" => some "twentieth"
  | "21" => some "twenty-first"
  | "22" => some "twenty-second"
  | "23" => some "twenty-third"
  | "24" => some "twenty-fourth"
  | "25" => some "twenty-fifth"
  | "26" => some "twenty-sixth"
  | "27" => some "twenty-seventh"
  | "28" => some "twenty-eighth"
  | "29" => some "twenty-ninth"
  | "30" => some "thirtieth"
  | "31" => some "thirty-first"
  | _ => none

/-- The `mths` table (lines 207-209). -/
def mths : String → Option String
  | "1" => some "january"
  | "2" => some "february"
  | "3" => some "march"
  | "4" => some "april"
  | "5" => some "may"
  | "6" => some "june"
  | "7" => some "july"
  | "8" => some "august"
  | "9" => some "september"
  | "10" => some "october"
  | "11" => some "november"
  | "12" => some "december"
  | _ => none

/-- The `yrs_ones` table (lines 210-211); note it has no entry for `"0"`. -/
def yrs_ones : String → Option String
  | "1" => some "one"
  | "2" => some "two"
  | "3" => some "three"
  | "4" => some "four"
  | "5" => some "five"
  | "6" => some "six"
  | "7" => some "seven"
  | "8" => some "eight"
  | "9" => some "nine"
  | _ => none

/-- The `yrs_tens` table (lines 212-213); `"0"` maps to `"o"`. -/
def yrs_tens : String → Option String
  | "0" => some "o"
  | "2" => some "twenty"
  | "3" => some "thirty"
  | "4" => some "forty"
  | "5" => some "fifty"
  | "6" => some "sixty"
  | "7" => some "seventy"
  | "8" => some "eighty"
  | "9" => some "ninety"
  | _ => none

/-- The `yrs_10to19` table (lines 214-216). -/
def yrs_10to19 : String → Option String
  | "10" => some "ten"
  | "11" => some "eleven"
  | "12" => some "twelve"
  | "13" => some "thirteen"
  | "14" => some "fourteen"
  | "15" => some "fifteen"
  | "16" => some "sixteen"
  | "17" => some "seventeen"
  | "18" => some "eighteen"
  | "19" => some "nineteen"
  | _ => none

/-- A match of the date pattern `(\d+)/(\d+)/?(\d{2,})?`:
the matched substring (group 0), the three groups, and the suffix of the
input after the match. -/
structure DateMatch where
  g0 : List Char
  day : List Char
  month : List Char
  year : Option (List Char)
  rest : List Char
deriving DecidableEq

/-- The date pattern matched at the start of `s`.  `\d+` is greedy and a
digit run is always followed by a non-digit, so the regex engine never
backtracks: take the maximal digit run, require `/`, take the next run,
then optionally consume `/` and a run of at least two digits. -/
def matchDateAnchored (s : List Char) : Option DateMatch :=
  let day := s.takeWhile Char.isDigit
  let s1 := s.dropWhile Char.isDigit
  if day = [] then none
  else
    match s1 with
    | '/' :: s2 =>
        let mo := s2.takeWhile Char.isDigit
        let s3 := s2.dropWhile Char.isDigit
        if mo = [] then none
        else
          match s3 with
          | '/' :: s4 =>
              let y := s4.takeWhile Char.isDigit
              let s5 := s4.dropWhile Char.isDigit
              if 2 ≤ y.length then
                some ⟨day ++ '/' :: (mo ++ '/' :: y), day, mo, some y, s5⟩
              else
                some ⟨day ++ '/' :: (mo ++ ['/']), day, mo, none, s4⟩
          | _ => some ⟨day ++ '/' :: mo, day, mo, none, s3⟩
    | _ => none

/-- `re.search`: the leftmost position at which the date pattern matches,
with the prefix of the phrase before the match. -/
def searchDate : List Char → Option (List Char × DateMatch)
  | [] => none
  | c :: cs =>
      match matchDateAnchored (c :: cs) with
      | some m => some ([], m)
      | none => (searchDate cs).map (fun pm => (c :: pm.1, pm.2))

/-- Python `str.replace(old, new)`: replace every non-overlapping occurrence
of `old`, scanning left to right (the scan resumes after each inserted
`new`).  The guard on `old ≠ []` keeps the function total; every call site
passes a nonempty matched substring.  The structural fuel equals the length
of the scanned list and decreases no faster than the list does, so the
`0, s => s` fallback of the auxiliary is unreachable from `replaceAll`. -/
def replaceAllAux (old new : List Char) : Nat → List Char → List Char
  | _, [] => []
  | 0, s => s
  | fuel + 1, c :: cs =>
      if old ≠ [] ∧ old.isPrefixOf (c :: cs) then
        new ++ replaceAllAux old new fuel (cs.drop (old.length - 1))
      else
        c :: replaceAllAux old new fuel cs

def replaceAll (old new s : List Char) : List Char :=
  replaceAllAux old new s.length s

/-- `string.punctuation`: `!"#$%&'()*+,-./:;<=>?@[\]^_`{|}~` (the six
characters that cannot appear literally here are given by code point). -/
def punctChars : List Char :=
  "!#$%&()*+,-./:;<=>?@[]^_|~".toList ++
    [Char.ofNat 34, Char.ofNat 39, Char.ofNat 92, Char.ofNat 96, Char.ofNat 123, Char.ofNat 125]

/-- Line 192-193: remove every punctuation character, then lowercase. -/
def stripPunctLower (w : List Char) : List Char :=
  (w.filter (fun c => ¬ punctChars.contains c)).map Char.toLower

/-- The whitespace characters Python `str.split()` splits on (ASCII scope:
space, tab, newline, carriage return, vertical tab, form feed). -/
def isPySpace (c : Char) : Bool :=
  c = ' ' || c = '\t' || c = '\n' || c = '\r' || c = Char.ofNat 11 || c = Char.ofNat 12

/-- `str.split()` with no separator: split on whitespace runs, no empty
tokens.  `acc` accumulates the current word in reverse. -/
def splitWsAux : List Char → List Char → List (List Char)
  | [], acc => if acc = [] then [] else [acc.reverse]
  | c :: cs, acc =>
      if isPySpace c then
        if acc = [] then splitWsAux cs [] else acc.reverse :: splitWsAux cs []
      else splitWsAux cs (c :: acc)

def splitWs (s : List Char) : List (List Char) := splitWsAux s []

/-- `'0123…'.lstrip('0')`. -/
def lstrip0 (s : List Char) : List Char := s.dropWhile (fun c => c = '0')

/-- `Utterance.normalise_dates` (lines 196-233).  The matched substring is
re-matched with `re.match`; a failed match would give `AttributeError` on
`.group` (unreachable from `normalise_phrase`).  Dictionary lookups that
miss raise `KeyError`.  `year[-2:]` is `drop (length - 2)`, which also
leaves a two-character year unchanged. -/
def normalise_dates (date : String) : Except SynthErr String :=
  match matchDateAnchored date.toList with
  | none => .error .attrErr
  | some m =>
      let day := String.mk (lstrip0 m.day)
      let month := String.mk (lstrip0 m.month)
      match m.year with
      | some y0 =>
          let y := y0.drop (y0.length - 2)
          (match mths month, dys day with
           | some mw, some dw =>
               (match yrs_10to19 (String.mk y) with
                | some yw => .ok (mw ++ " " ++ dw ++ " nineteen " ++ yw)
                | none =>
                    match yrs_tens (String.mk (y.take 1)), yrs_ones (String.mk (y.drop 1)) with
                    | some tw, some ow =>
                        .ok (mw ++ " " ++ dw ++ " nineteen " ++ tw ++ " " ++ ow)
                    | _, _ => .error .keyErr)
           | _, _ => .error .keyErr)
      | none =>
          match mths month, dys day with
          | some mw, some dw => .ok (mw ++ " " ++ dw)
          | _, _ => .error .keyErr

/-- Number of decimal digits in the phrase; used as the recursion fuel of
`normalise_phrase`. -/
def digitCount (s : List Char) : Nat := (s.filter (fun c => c.isDigit)).length

/-- The date-substitution loop of `Utterance.normalise_phrase`
(lines 182-194): while a date matches, verbalise it, replace every
occurrence of the matched substring in the phrase and re-scan (the Python
recursion mutates `self.phrase` and re-splits, which yields the same
tokens); then split on whitespace, strip punctuation and lowercase.  Each
substitution removes at least the two digits of the matched day and month
and inserts none — the verbalisation tables are purely alphabetic — so
`digitCount + 1` units of fuel always suffice and `.loopLimit` is
unreachable. -/
def normGo : Nat → List Char → Except SynthErr (List String)
  | 0, _ => .error .loopLimit
  | fuel + 1, phrase =>
      match searchDate phrase with
      | some pm =>
          match normalise_dates (String.mk pm.2.g0) with
          | .ok d => normGo fuel (replaceAll pm.2.g0 d.toList phrase)
          | .error e => .error e
      | none => .ok ((splitWs phrase).map (fun w => String.mk (stripPunctLower w)))

/-- `Utterance.normalise_phrase`. -/
def normalise_phrase (phrase : String) : Except SynthErr (List String) :=
  normGo (digitCount phrase.toList + 1) phrase.toList

/-- The CMU pronouncing dictionary as an opaque lookup: a word maps to its
list of pronunciation variants, each a list of phones. -/
abbrev Dict := String → Option (List (List String))

/-- The lookup loop of `Utterance.get_phone_seq` (lines 247-254):
`dictionary[word][0]` — a missing word raises `KeyError`, which is caught
(reported and skipped); a present word with an empty variant list would
raise an uncaught IndexError. -/
def lookupPhones (dict : Dict) : List String → Except SynthErr (List String)
  | [] => .ok []
  | w :: ws =>
      match dict w with
      | none => lookupPhones dict ws
      | some [] => .error .idxErr
      | some (v :: _) => (lookupPhones dict ws).map (fun rest => v ++ rest)

/-- `Utterance.get_phone_seq` (lines 235-259). -/
def get_phone_seq (dict : Dict) (phrase : String) (reverse : RMode) :
    Except SynthErr (List String) := do
  let toks ← normalise_phrase phrase
  let toks := if reverse = RMode.words then toks.reverse else toks
  let ps ← lookupPhones dict toks
  pure (if reverse = RMode.phones then ps.reverse else ps)

/-- Concrete two-unit inventory used to exhibit the crossfade mutation:
both units hold five constant samples of amplitude 10. -/
def invRepro : Inv := fun k =>
  if k = "pau-t.wav" then some [10, 10, 10, 10, 10]
  else if k = "t-pau.wav" then some [10, 10, 10, 10, 10] else none

/-- First crossfade call on `invRepro` (rate 400, so the ramp window is 4). -/
def reproRun1 : Option (Samples × Inv) :=
  synthesise invRepro ["t"] 400 RMode.noRev true

/-- The inventory after the first crossfade call. -/
def reproInv2 : Inv := (reproRun1.getD ([], invRepro)).2

/-- Second, identical crossfade call, on the mutated inventory. -/
def reproRun2 : Option (Samples × Inv) :=
  synthesise reproInv2 ["t"] 400 RMode.noRev true

/-- One-unit inventory for the single-resolved-unit crossfade case. -/
def invOne : Inv := fun k => if k = "pau-pau.wav" then some [8, 8, 8, 8, 8] else none

/-- Three-unit inventory whose middle unit is shorter than twice the ramp
window (4 samples against a window of 3 at rate 300). -/
def inv6cx : Inv := fun k =>
  if k = "pau-t.wav" then some [4, 4, 4, 4, 4, 4, 4, 4]
  else if k = "t-k.wav" then some [4, 4, 4, 4]
  else if k = "k-pau.wav" then some [4, 4, 4, 4, 4, 4, 4, 4] else none

/-- Three-unit inventory with all units of length 8, at least twice the
ramp window 3 of rate 300. -/
def inv6w : Inv := fun k =>
  if k = "pau-t.wav" then some [9, 8, 7, 6, 5, 4, 3, 2]
  else if k = "t-k.wav" then some [5, 5, 5, 5, 5, 5, 5, 5]
  else if k = "k-pau.wav" then some [2, 3, 4, 5, 6, 7, 8, 9] else none

/-- Small deterministic stand-in for the pronunciation dictionary: two
known words and everything else unknown. -/
def dict0 : Dict := fun w =>
  if w = "a" then some [["AH0"]]
  else if w = "c" then some [["S", "IY1"], ["K"]] else none

/-- The tail ramp exactly as claim C3 words it: the sample at offset `i`
from the end (offset 0 being the very last sample) is scaled by
`(n-1-i)/n`, i.e. window position `k` (counted from the start of the final
`n` samples) gets factor `k/n` — the reverse of what the source computes. -/
def claimTailRamp (a : Samples) (n : Nat) : Samples :=
  a.take (a.length - n) ++
    ((a.drop (a.length - n)).zip (List.range n)).map (fun p => truncScale p.1 p.2 n)

/-! ### Helper lemmas -/

theorem update_self (inv : Inv) (k : String) (v : Samples) : update inv k v k = some v := by
  simp [update]

theorem update_other (inv : Inv) (k q : String) (v : Samples) (h : q ≠ k) :
    update inv k v q = inv q := by
  simp [update, h]

theorem smooth_end_some (a : Samples) (n : Nat) (h : n ≤ a.length) :
    smooth_end a n = some (tailRampF a n) := by
  simp [smooth_end, Nat.not_lt.mpr h]

theorem smooth_beg_some (a : Samples) (n : Nat) (h : n ≤ a.length) :
    smooth_beg a n = some (headRampF a n) := by
  simp [smooth_beg, Nat.not_lt.mpr h]

theorem length_tailRampF (a : Samples) (n : Nat) : (tailRampF a n).length = a.length := by
  simp [tailRampF, List.length_zip]
  omega

theorem length_headRampF (a : Samples) (n : Nat) : (headRampF a n).length = a.length := by
  simp [headRampF, List.length_zip]
  omega

theorem pairKeys_eq_zipWith (l : List String) :
    pairKeys l = List.zipWith (fun a b => a ++ "-" ++ b ++ ".wav") l l.tail := by
  induction l with
  | nil => rfl
  | cons a l ih =>
      cases l with
      | nil => rfl
      | cons b r => simpa [pairKeys] using ih

theorem length_pairKeys (l : List String) : (pairKeys l).length = l.length - 1 := by
  induction l with
  | nil => rfl
  | cons a l ih =>
      cases l with
      | nil => rfl
      | cons b r =>
          simp only [pairKeys, List.length_cons] at ih ⊢
          omega

/-- The plain-mode accumulator loop, generalised over the accumulator. -/
theorem plain_foldl (inv : Inv) (ks : List String) (acc : Samples) :
    (ks.foldl (fun acc k => match inv k with
      | some u => acc ++ u
      | none => acc) acc) = acc ++ (ks.filterMap inv).flatten := by
  induction ks generalizing acc with
  | nil => simp
  | cons k ks ih =>
      cases h : inv k with
      | none => simp [List.filterMap_cons, h, ih]
      | some u => simp [List.filterMap_cons, h, ih]

theorem toList_mk (l : List Char) : (String.mk l).toList = l := rfl

/-- A run of characters satisfying `p` followed by a character that does
not satisfy it is exactly what `takeWhile` takes and `dropWhile` leaves. -/
theorem takeWhile_append_all {p : Char → Bool} (d r : List Char)
    (hd : ∀ c ∈ d, p c) (hr : ∀ c, r.head? = some c → p c = false) :
    (d ++ r).takeWhile p = d ∧ (d ++ r).dropWhile p = r := by
  induction d with
  | nil =>
      cases r with
      | nil => simp
      | cons c cs =>
          have := hr c rfl
          simp [List.takeWhile_cons, List.dropWhile_cons, this]
  | cons a d ih =>
      have ha : p a := hd a (by simp)
      have ih' := ih (fun c hc => hd c (by simp [hc]))
      simp [List.takeWhile_cons, List.dropWhile_cons, ha, ih'.1, ih'.2]

theorem takeWhile_all {p : Char → Bool} (d : List Char) (hd : ∀ c ∈ d, p c) :
    d.takeWhile p = d ∧ d.dropWhile p = [] := by
  have := takeWhile_append_all d [] hd (fun c hc => by simp at hc)
  simpa using this

/-- Anchored match of a canonical full date `D+/D+/D{2,}`. -/
theorem matchDateAnchored_canonical_year (d mo y : List Char)
    (hd : d ≠ []) (hdd : ∀ c ∈ d, c.isDigit) (hm : mo ≠ []) (hmd : ∀ c ∈ mo, c.isDigit)
    (hy : 2 ≤ y.length) (hyd : ∀ c ∈ y, c.isDigit) :
    matchDateAnchored (d ++ '/' :: (mo ++ '/' :: y)) =
      some ⟨d ++ '/' :: (mo ++ '/' :: y), d, mo, some y, []⟩ := by
  have h1 := takeWhile_append_all d ('/' :: (mo ++ '/' :: y)) hdd
    (fun c hc => by simp only [List.head?_cons, Option.some.injEq] at hc; subst hc; decide)
  have h2 := takeWhile_append_all mo ('/' :: y) hmd
    (fun c hc => by simp only [List.head?_cons, Option.some.injEq] at hc; subst hc; decide)
  have h3 := takeWhile_all y hyd
  simp only [matchDateAnchored, h1.1, h1.2, h2.1, h2.2, h3.1, h3.2, if_neg hd, if_neg hm,
    if_pos hy]

/-- Anchored match of a day/month-only date `D+/D+`. -/
theorem matchDateAnchored_canonical_noyear (d mo : List Char)
    (hd : d ≠ []) (hdd : ∀ c ∈ d, c.isDigit) (hm : mo ≠ []) (hmd : ∀ c ∈ mo, c.isDigit) :
    matchDateAnchored (d ++ '/' :: mo) = some ⟨d ++ '/' :: mo, d, mo, none, []⟩ := by
  have h1 := takeWhile_append_all d ('/' :: mo) hdd
    (fun c hc => by simp only [List.head?_cons, Option.some.injEq] at hc; subst hc; decide)
  have h2 := takeWhile_all mo hmd
  simp only [matchDateAnchored, h1.1, h1.2, h2.1, h2.2, if_neg hd, if_neg hm]

/-- Anchored match of `D+/D+/` with no year digits after the second slash. -/
theorem matchDateAnchored_canonical_slash (d mo : List Char)
    (hd : d ≠ []) (hdd : ∀ c ∈ d, c.isDigit) (hm : mo ≠ []) (hmd : ∀ c ∈ mo, c.isDigit) :
    matchDateAnchored (d ++ '/' :: (mo ++ ['/'])) =
      some ⟨d ++ '/' :: (mo ++ ['/']), d, mo, none, []⟩ := by
  have h1 := takeWhile_append_all d ('/' :: (mo ++ ['/'])) hdd
    (fun c hc => by simp only [List.head?_cons, Option.some.injEq] at hc; subst hc; decide)
  have h2 := takeWhile_append_all mo ['/'] hmd
    (fun c hc => by simp only [List.head?_cons, Option.some.injEq] at hc; subst hc; decide)
  simp only [matchDateAnchored, h1.1, h1.2, h2.1, h2.2, if_neg hd, if_neg hm]
  simp

/-- Structure of any successful anchored match: the groups are nonempty
digit runs and group 0 is one of the three canonical shapes. -/
theorem matchDateAnchored_props (s : List Char) (m : DateMatch)
    (h : matchDateAnchored s = some m) :
    m.day ≠ [] ∧ (∀ c ∈ m.day, c.isDigit) ∧ m.month ≠ [] ∧ (∀ c ∈ m.month, c.isDigit) ∧
    ((∃ y, m.year = some y ∧ 2 ≤ y.length ∧ (∀ c ∈ y, c.isDigit) ∧
        m.g0 = m.day ++ '/' :: (m.month ++ '/' :: y)) ∨
      (m.year = none ∧ (m.g0 = m.day ++ '/' :: m.month ∨
        m.g0 = m.day ++ '/' :: (m.month ++ ['/'])))) := by
  simp only [matchDateAnchored] at h
  split at h
  · exact absurd h (by simp)
  · rename_i hd
    split at h
    · rename_i s2 heq1
      split at h
      · exact absurd h (by simp)
      · rename_i hmo
        split at h
        · rename_i s4 heq3
          split at h
          · rename_i hy
            cases h
            refine ⟨hd, fun c hc => List.mem_takeWhile_imp hc, hmo,
              fun c hc => List.mem_takeWhile_imp hc, Or.inl ⟨_, rfl, hy,
              fun c hc => List.mem_takeWhile_imp hc, rfl⟩⟩
          · cases h
            exact ⟨hd, fun c hc => List.mem_takeWhile_imp hc, hmo,
              fun c hc => List.mem_takeWhile_imp hc, Or.inr ⟨rfl, Or.inr rfl⟩⟩
        · cases h
          exact ⟨hd, fun c hc => List.mem_takeWhile_imp hc, hmo,
            fun c hc => List.mem_takeWhile_imp hc, Or.inr ⟨rfl, Or.inl rfl⟩⟩
    · exact absurd h (by simp)

/-- Re-matching the matched substring of a successful search anchored at
its start reproduces the same groups with nothing left over — this is what
`normalise_dates` relies on when it re-runs `re.match` on `group(0)`. -/
theorem searchDate_reparse (s : List Char) : ∀ pre m, searchDate s = some (pre, m) →
    matchDateAnchored m.g0 = some ⟨m.g0, m.day, m.month, m.year, []⟩ := by
  induction s with
  | nil => intro pre m h; simp [searchDate] at h
  | cons c cs ih =>
      intro pre m h
      simp only [searchDate] at h
      cases hm : matchDateAnchored (c :: cs) with
      | some m0 =>
          rw [hm] at h
          simp only [Option.some.injEq, Prod.mk.injEq] at h
          obtain ⟨-, rfl⟩ := h
          obtain ⟨hd, hdd, hmo, hmd, hyr⟩ := matchDateAnchored_props _ _ hm
          rcases hyr with ⟨y, hy, hylen, hyd, hg0⟩ | ⟨hy, hg0 | hg0⟩
          · rw [hg0, matchDateAnchored_canonical_year _ _ _ hd hdd hmo hmd hylen hyd, hy]
          · rw [hg0, matchDateAnchored_canonical_noyear _ _ hd hdd hmo hmd, hy]
          · rw [hg0, matchDateAnchored_canonical_slash _ _ hd hdd hmo hmd, hy]
      | none =>
          rw [hm] at h
          obtain ⟨⟨pre2, m2⟩, hsd, heq⟩ := Option.map_eq_some'.mp h
          simp only [Prod.mk.injEq] at heq
          obtain ⟨-, rfl⟩ := heq
          exact ih pre2 m2 hsd

theorem rampAt_end_some (inv : Inv) (k : String) (u : Samples) (n : Nat)
    (hu : inv k = some u) (hn : n ≤ u.length) :
    rampAt smooth_end n inv k = some (update inv k (tailRampF u n)) := by
  simp [rampAt, hu, smooth_end_some u n hn]

theorem rampAt_beg_some (inv : Inv) (k : String) (u : Samples) (n : Nat)
    (hu : inv k = some u) (hn : n ≤ u.length) :
    rampAt smooth_beg n inv k = some (update inv k (headRampF u n)) := by
  simp [rampAt, hu, smooth_beg_some u n hn]

/-- Running the middle-unit smoothing loop over pairwise distinct, present
keys of sufficient length succeeds; afterwards every loop key holds its
head- then tail-ramped unit and every other key is untouched. -/
theorem smoothMids_spec (n : Nat) (ms : List String) : ∀ inv : Inv,
    ms.Nodup → (∀ k ∈ ms, ∃ u, inv k = some u ∧ n ≤ u.length) →
    ∃ inv2, smoothMids n inv ms = some inv2 ∧
      (∀ q, q ∉ ms → inv2 q = inv q) ∧
      (∀ k ∈ ms, inv2 k = (inv k).map (fun u => tailRampF (headRampF u n) n)) := by
  induction ms with
  | nil =>
      intro inv _ _
      exact ⟨inv, rfl, fun q _ => rfl, fun k hk => absurd hk (List.not_mem_nil k)⟩
  | cons k ks ih =>
      intro inv hnd hpres
      obtain ⟨u, hu, hlen⟩ := hpres k (by simp)
      have h1 := rampAt_beg_some inv k u n hu hlen
      have hlen2 : n ≤ (headRampF u n).length := by rw [length_headRampF]; exact hlen
      have h2 := rampAt_end_some (update inv k (headRampF u n)) k (headRampF u n) n
        (update_self inv k (headRampF u n)) hlen2
      have hknotks : k ∉ ks := (List.nodup_cons.mp hnd).1
      have hkse : ∀ q ∈ ks,
          update (update inv k (headRampF u n)) k (tailRampF (headRampF u n) n) q = inv q := by
        intro q hq
        have hqk : q ≠ k := fun e => hknotks (e ▸ hq)
        rw [update_other _ _ _ _ hqk, update_other _ _ _ _ hqk]
      obtain ⟨inv2, hrun, hout, hin⟩ :=
        ih (update (update inv k (headRampF u n)) k (tailRampF (headRampF u n) n))
          (List.nodup_cons.mp hnd).2
          (fun q hq => by rw [hkse q hq]; exact hpres q (by simp [hq]))
      refine ⟨inv2, ?_, ?_, ?_⟩
      · simp only [smoothMids, h1, h2, Option.bind_some, Option.some_bind, bind, hrun]
      · intro q hq
        simp only [List.mem_cons, not_or] at hq
        rw [hout q hq.2, update_other _ _ _ _ hq.1, update_other _ _ _ _ hq.1]
      · intro q hq
        rcases List.mem_cons.mp hq with rfl | hq2
        · rw [hout q hknotks, update_self, hu]; rfl
        · rw [hin q hq2, hkse q hq2]

/-- The full smoothing phase on at least two distinct resolved keys of
sufficient length: the first key ends up tail-ramped, every middle key
head- then tail-ramped, the last key head-ramped. -/
theorem smoothPhase_spec (n : Nat) (inv : Inv) (k0 : String) (rest : List String)
    (hne : rest ≠ []) (hnd : (k0 :: rest).Nodup)
    (hpres : ∀ k ∈ k0 :: rest, ∃ u, inv k = some u ∧ n ≤ u.length) :
    ∃ inv2, smoothPhase n inv (k0 :: rest) = some inv2 ∧
      inv2 k0 = (inv k0).map (fun u => tailRampF u n) ∧
      (∀ k ∈ rest.dropLast, inv2 k = (inv k).map (fun u => tailRampF (headRampF u n) n)) ∧
      inv2 (rest.getLastD k0) = (inv (rest.getLastD k0)).map (fun u => headRampF u n) := by
  have hk0rest : k0 ∉ rest := (List.nodup_cons.mp hnd).1
  have hrestnd : rest.Nodup := (List.nodup_cons.mp hnd).2
  have hlastD : rest.getLastD k0 = rest.getLast hne := by
    cases rest with
    | nil => exact absurd rfl hne
    | cons a l => simp [List.getLastD_eq_getLast?, List.getLast?_eq_getLast]
  have hlast_mem : rest.getLastD k0 ∈ rest := by
    rw [hlastD]; exact List.getLast_mem hne
  have hdecomp : rest.dropLast ++ [rest.getLastD k0] = rest := by
    rw [hlastD]; exact List.dropLast_append_getLast hne
  have hlast_notmid : rest.getLastD k0 ∉ rest.dropLast := by
    intro hmem
    have hnodup := hrestnd
    rw [← hdecomp] at hnodup
    rcases List.nodup_append.mp hnodup with ⟨-, -, hdisj⟩
    exact hdisj hmem (by simp)
  have hk0last : k0 ≠ rest.getLastD k0 := fun e => hk0rest (e ▸ hlast_mem)
  obtain ⟨u0, hu0, hl0⟩ := hpres k0 (by simp)
  have h1 := rampAt_end_some inv k0 u0 n hu0 hl0
  have hmid_pres : ∀ k ∈ rest.dropLast,
      ∃ u, update inv k0 (tailRampF u0 n) k = some u ∧ n ≤ u.length := by
    intro k hk
    have hkrest : k ∈ rest := List.dropLast_subset rest hk
    have hkk0 : k ≠ k0 := fun e => hk0rest (e ▸ hkrest)
    rw [update_other _ _ _ _ hkk0]
    exact hpres k (List.mem_cons.mpr (Or.inr hkrest))
  obtain ⟨invm, hrunm, houtm, hinm⟩ :=
    smoothMids_spec n rest.dropLast (update inv k0 (tailRampF u0 n))
      (hrestnd.sublist (List.dropLast_sublist rest)) hmid_pres
  obtain ⟨ulast, hul, hll⟩ := hpres (rest.getLastD k0) (List.mem_cons.mpr (Or.inr hlast_mem))
  have hinvm_last : invm (rest.getLastD k0) = some ulast := by
    rw [houtm _ hlast_notmid, update_other _ _ _ _ hk0last.symm, hul]
  have h3 := rampAt_beg_some invm (rest.getLastD k0) ulast n hinvm_last hll
  refine ⟨update invm (rest.getLastD k0) (headRampF ulast n), ?_, ?_, ?_, ?_⟩
  · simp only [smoothPhase, h1, Option.bind_some, Option.some_bind, bind, hrunm, h3]
  · have hk0mid : k0 ∉ rest.dropLast := fun hmem => hk0rest (List.dropLast_subset rest hmem)
    rw [update_other _ _ _ _ hk0last, houtm _ hk0mid, update_self, hu0]; rfl
  · intro k hk
    have hklast : k ≠ rest.getLastD k0 := fun e => hlast_notmid (e ▸ hk)
    have hkk0 : k ≠ k0 := fun e => hk0rest (e ▸ List.dropLast_subset rest hk)
    rw [update_other _ _ _ _ hklast, hinm k hk, update_other _ _ _ _ hkk0]
  · rw [update_self, hul]; rfl

theorem getLastD_cons_eq_getLast {α : Type} (a : α) (l : List α) (d : α) :
    (a :: l).getLastD d = (a :: l).getLast (by simp) := by
  simp [List.getLastD_eq_getLast?, List.getLast?_eq_getLast]

theorem dropLast_append_getLastD {α : Type} (a : α) (l : List α) (d : α) :
    (a :: l).dropLast ++ [(a :: l).getLastD d] = a :: l := by
  rw [getLastD_cons_eq_getLast]
  exact List.dropLast_append_getLast (by simp)

theorem getLastD_map {α β : Type} (f : α → β) : ∀ (l : List α) (d : α),
    (l.map f).getLastD (f d) = f (l.getLastD d)
  | [], _ => rfl
  | a :: l, d => by
      rw [List.map_cons, List.getLastD_cons, List.getLastD_cons, getLastD_map f l a]

theorem overlapSegs_cons_cons (n : Nat) (a b : Samples) (rest : List Samples) :
    overlapSegs n (a :: b :: rest) =
      List.zipWith (fun x y => x + y) (a.drop (a.length - n)) (b.take n) ::
        overlapSegs n (b :: rest) := by
  simp [overlapSegs]

/-- Every overlap segment of a unit list whose units have at least `n`
samples has exactly `n` samples: `np.add` of an `n`-slice from each side. -/
theorem overlapSegs_len (n : Nat) : ∀ (ws : List Samples), (∀ w ∈ ws, n ≤ w.length) →
    ∀ seg ∈ overlapSegs n ws, seg.length = n := by
  intro ws
  induction ws with
  | nil => intro _ seg hseg; simp [overlapSegs] at hseg
  | cons a ws ih =>
      intro hlen seg hseg
      cases ws with
      | nil => simp [overlapSegs] at hseg
      | cons b ws2 =>
          rw [overlapSegs_cons_cons] at hseg
          rcases List.mem_cons.mp hseg with rfl | h2
          · have ha : n ≤ a.length := hlen a (by simp)
            have hb : n ≤ b.length := hlen b (by simp)
            simp only [List.length_zipWith, List.length_drop, List.length_take]
            omega
          · exact ih (fun w hw => hlen w (List.mem_cons.mpr (Or.inr hw))) seg h2

/-- Ramping preserves unit lengths, so every entry of `specRamp` keeps at
least `n` samples when every input unit has at least `n`. -/
theorem mem_specRamp_length (n : Nat) (us : List Samples)
    (hus : ∀ u ∈ us, n ≤ u.length) : ∀ w ∈ specRamp n us, n ≤ w.length := by
  cases us with
  | nil => intro w hw; simp [specRamp] at hw
  | cons u0 urest =>
      cases urest with
      | nil =>
          intro w hw
          simp only [specRamp, List.mem_singleton] at hw
          subst hw
          exact hus _ (by simp)
      | cons u1 ur2 =>
          intro w hw
          simp only [specRamp, List.mem_cons, List.mem_append, List.mem_map,
            List.mem_singleton] at hw
          rcases hw with rfl | hw2
          · rw [length_tailRampF]; exact hus u0 (by simp)
          · rcases hw2 with ⟨u, humem, rfl⟩ | hw3
            · rw [length_tailRampF, length_headRampF]
              exact hus u (List.mem_cons.mpr (Or.inr (List.dropLast_subset _ humem)))
            · rcases hw3 with rfl | h
              · rw [length_headRampF]
                exact hus _ (List.getLastD_mem_cons _ _)
              · simp at h

/-- The assembled crossfade buffer on the canonical shape
`first :: middles ++ [last]`. -/
theorem assemble_shape (n : Nat) (w0 wl : Samples) (wm : List Samples) :
    assembleOverlapAdd n (w0 :: wm ++ [wl]) =
      w0.take (w0.length - n) ++
        (List.zipWith (fun v t => v ++ t) (overlapSegs n (w0 :: wm ++ [wl]))
          (wm.map (fun d => (d.drop n).take (d.length - 2 * n)) ++ [wl.drop n])).flatten := by
  have h1 : (wm ++ [wl]).dropLast = wm := by simp
  have h2 : (wm ++ [wl]).getLastD w0 = wl := List.getLastD_concat _ _ _
  have h0 : assembleOverlapAdd n (w0 :: wm ++ [wl]) =
      w0.take (w0.length - n) ++
        (List.zipWith (fun v t => v ++ t) (overlapSegs n (w0 :: wm ++ [wl]))
          ((wm ++ [wl]).dropLast.map (fun d => (d.drop n).take (d.length - 2 * n)) ++
            [((wm ++ [wl]).getLastD w0).drop n])).flatten := rfl
  rw [h0, h1, h2]

/-- Total length of the assembled crossfade buffer: first and last units of
at least `n` samples and middle units of at least `2n` samples give
`sum of lengths − (number of boundaries) · n`, stated without truncated
subtraction. -/
theorem assemble_length (n : Nat) : ∀ (wm : List Samples) (w0 wl : Samples),
    n ≤ w0.length → n ≤ wl.length → (∀ w ∈ wm, 2 * n ≤ w.length) →
    (assembleOverlapAdd n (w0 :: wm ++ [wl])).length + (wm.length + 1) * n =
      w0.length + (wm.map List.length).sum + wl.length := by
  intro wm
  induction wm with
  | nil =>
      intro w0 wl h0 hl _
      rw [assemble_shape]
      simp only [List.nil_append, List.cons_append, List.map_nil, overlapSegs,
        List.tail_cons, List.zipWith_cons_cons, List.zipWith_nil_right, List.flatten_cons,
        List.flatten_nil, List.append_nil, List.length_append, List.length_take,
        List.length_drop, List.length_zipWith, List.length_nil, List.map_cons,
        List.sum_cons, List.sum_nil]
      omega
  | cons w wm2 ih =>
      intro w0 wl h0 hl hm
      have hw2 : 2 * n ≤ w.length := hm w (by simp)
      have ihh := ih w wl (by omega) hl (fun x hx => hm x (by simp [hx]))
      rw [assemble_shape] at ihh
      rw [assemble_shape]
      simp only [List.cons_append] at ihh ⊢
      rw [overlapSegs_cons_cons]
      simp only [List.map_cons, List.cons_append, List.zipWith_cons_cons, List.flatten_cons,
        List.length_append, List.length_take, List.length_drop, List.length_zipWith,
        List.length_cons, List.sum_cons] at ihh ⊢
      have hmul : (wm2.length + 1 + 1) * n = (wm2.length + 1) * n + n := by ring
      rw [hmul]
      omega

/-! ### Claim theorems -/

/-- C1: the claim says the sample arrays stored in the inventory are never
mutated by `synthesise` and that two successive identical calls return equal
buffers.  The code violates this: in crossfade mode `list_for_smoothing`
holds references to the stored arrays and the smoothing loops write through
numpy slice views, so the call mutates the inventory in place.  On a
two-unit inventory of constant-10 units (rate 400, window 4), the first
call turns `pau-t.wav` into `[10, 7, 5, 2, 0]`, and a second identical
call returns a different buffer. -/
theorem c1_crossfade_mutates_inventory :
    invRepro "pau-t.wav" = some [10, 10, 10, 10, 10] ∧
    reproInv2 "pau-t.wav" = some [10, 7, 5, 2, 0] ∧
    reproInv2 "t-pau.wav" = some [0, 2, 5, 7, 10] ∧
    reproRun1.map Prod.fst = some [10, 7, 7, 7, 7, 10] ∧
    reproRun2.map Prod.fst = some [10, 5, 2, 2, 5, 10] ∧
    reproRun1.map Prod.fst ≠ reproRun2.map Prod.fst := by
  refine ⟨rfl, rfl, rfl, rfl, rfl, ?_⟩
  decide

/-- C2 (counterexample): the claim says that in crossfade mode an empty
resolution (`m = 0`) yields an empty output buffer and no index fault.  In
fact `smooth_dip = [self.smooth_end(list_for_smoothing[0], …)]` indexes the
empty list and raises an uncaught IndexError (modelled `none`): here no
diphone key of the empty phone list is in the inventory. -/
theorem c2_empty_resolution_faults :
    synthesise_smooth (fun _ => none) [] 400 = none := rfl

/-- C3 (counterexample): on the two-sample array `[100, 100]` with window
`N = 2` the source scales the very last sample by `0/2` and the
second-to-last by `1/2`, giving `[50, 0]`; the claim's indexing (offset `i`
from the end scaled by `(N-1-i)/N`) would give `[0, 50]` instead. -/
theorem c3_ramp_direction_counterexample :
    smooth_end [100, 100] 2 = some [50, 0] ∧
    claimTailRamp [100, 100] 2 = [0, 50] ∧
    smooth_end [100, 100] 2 ≠ some (claimTailRamp [100, 100] 2) := by
  refine ⟨rfl, rfl, ?_⟩
  decide

/-- C4 (counterexample): the claim says a two-digit year with ones digit
`0` (such as 70) yields the token `"o"` in the ones position rather than
failing.  In the source `"o"` is the entry of the *tens* table for tens
digit `0`, while `yrs_ones` has no `"0"` entry at all, so verbalising
`9/3/1970` raises `KeyError`. -/
theorem c4_year_ones_zero_fails :
    normalise_dates "9/3/1970" = .error SynthErr.keyErr ∧
    yrs_ones "0" = none ∧ yrs_tens "0" = some "o" := by
  refine ⟨rfl, rfl, rfl⟩

/-- C5: for any phone list of length `n`, `phones_to_diphones` returns
exactly `n + 1` keys, each of the form `a ++ "-" ++ b ++ ".wav"` for the
adjacent pairs of the lowercased, digit-stripped phones padded with
`"pau"` on both sides; the empty input yields exactly `["pau-pau.wav"]`. -/
theorem c5_diphone_key_count (phones : List String) :
    (phones_to_diphones phones).length = phones.length + 1 ∧
    phones_to_diphones phones =
      List.zipWith (fun a b => a ++ "-" ++ b ++ ".wav")
        ("pau" :: phones.map cleanPhone ++ ["pau"])
        (phones.map cleanPhone ++ ["pau"]) ∧
    phones_to_diphones [] = ["pau-pau.wav"] := by
  refine ⟨?_, ?_, rfl⟩
  · simp [phones_to_diphones, length_pairKeys]
  · rw [phones_to_diphones, pairKeys_eq_zipWith]
    rfl

/-- C6 (counterexample): the claim's length formula
`sum(len(u_i)) - (m-1)*N` fails when a middle unit is shorter than `2N`:
with rate 300 (window `N = 3`) and resolved units of lengths 8, 4 and 8,
the middle trim `u[3:-3]` is empty rather than of length `4 - 6`, and the
output has 16 samples, not `8 + 4 + 8 - 2*3 = 14`. -/
theorem c6_short_unit_length_counterexample :
    (synthesise_smooth inv6cx ["t", "k"] 300).map (fun p => p.1.length) = some 16 ∧
    (resolvedKeys inv6cx ["t", "k"]).length = 3 ∧
    (16 : Nat) ≠ 8 + 4 + 8 - (3 - 1) * 3 := by
  refine ⟨rfl, rfl, ?_⟩
  decide

/-- C7: in plain mode `synthesise` never fails, and the output buffer is
the in-order concatenation of the sample arrays of exactly those diphone
keys present in the inventory — absent keys are skipped, nothing is
inserted in their place, and the (unmutated) inventory is returned. -/
theorem c7_plain_mode_skips_missing (inv : Inv) (phones : List String) (rate : Nat) :
    synthesise inv phones rate RMode.noRev false =
      some (((phones_to_diphones phones).filterMap inv).flatten, inv) := by
  simp only [synthesise, if_neg (by simp : ¬ (false = true))]
  simp [synthesise_plain, plain_foldl]

/-- C9: normalising `"09/03/1973"` yields exactly
`["march", "ninth", "nineteen", "seventy", "three"]`, and `"09/03/73"`
normalises to the identical token sequence. -/
theorem c9_date_normalisation_examples :
    normalise_phrase "09/03/1973" =
      .ok ["march", "ninth", "nineteen", "seventy", "three"] ∧
    normalise_phrase "09/03/73" =
      .ok ["march", "ninth", "nineteen", "seventy", "three"] := by
  constructor <;> decide

/-- C10 (counterexample): the claim quantifies over every phrase containing
a substring that matches the date pattern with out-of-range day or month.
The phrase `"9/9/99"` contains such a substring — `"9/99"` is a full match
of the pattern with month group `"99"`, outside the 1-12 table — yet
normalisation processes the leftmost match `"9/9/99"` (day 9, month 9,
year 99), raises nothing, and returns a token list. -/
theorem c10_substring_date_no_error :
    List.IsInfix "9/99".toList "9/9/99".toList ∧
    matchDateAnchored "9/99".toList =
      some ⟨"9/99".toList, ['9'], ['9', '9'], none, []⟩ ∧
    mths (String.mk (lstrip0 ['9', '9'])) = none ∧
    normalise_phrase "9/9/99" =
      .ok ["september", "ninth", "nineteen", "ninety", "nine"] := by
  refine ⟨⟨['9', '/'], [], by decide⟩, by decide, by decide, by decide⟩

/-- C3 (amended): for `n ≤ len(a)`, `smooth_end` succeeds and leaves every
sample before the final window unchanged, and within the window the sample
at position `i` — i.e. at offset `len(a) - 1 - i` from the end — is scaled
by `(len(a) - 1 - i) / n`, truncating toward zero.  Equivalently, the
sample at offset `j` from the end (offset 0 being the very last sample) is
scaled by `j / n`, not by `(n - 1 - j) / n` as the claim stated: the
factors fall from `(n-1)/n` at the start of the window to `0` at the very
last sample. -/
theorem c3_tail_ramp_pointwise (a : Samples) (n i : Nat)
    (hn : n ≤ a.length) (hi : i < a.length) :
    smooth_end a n = some (tailRampF a n) ∧
    (tailRampF a n).length = a.length ∧
    (i < a.length - n → (tailRampF a n)[i]? = a[i]?) ∧
    (a.length - n ≤ i → (tailRampF a n)[i]? =
      a[i]?.map (fun x => truncScale x (a.length - 1 - i) n)) := by
  refine ⟨smooth_end_some a n hn, length_tailRampF a n, ?_, ?_⟩
  · intro h
    have hlt : i < (a.take (a.length - n)).length := by
      simp only [List.length_take]
      omega
    rw [tailRampF, List.getElem?_append_left hlt, List.getElem?_take_of_lt h]
  · intro h
    have hj : i - (a.length - n) < n := by omega
    have hji : a.length - n + (i - (a.length - n)) = i := by omega
    have hfac : n - 1 - (i - (a.length - n)) = a.length - 1 - i := by omega
    have hge : (a.take (a.length - n)).length ≤ i := by
      simp only [List.length_take]
      omega
    rw [tailRampF, List.getElem?_append_right hge, List.getElem?_map]
    have hzip : (List.zip (a.drop (a.length - n)) (List.range n).reverse)[i - (a.take (a.length - n)).length]? =
        some (a[i], a.length - 1 - i) := by
      have hlen : i - (a.take (a.length - n)).length = i - (a.length - n) := by
        simp only [List.length_take]
        omega
      rw [hlen, List.getElem?_zip_eq_some]
      constructor
      · rw [List.getElem?_drop, hji, List.getElem?_eq_getElem hi]
      · rw [List.getElem?_reverse (by simpa using hj)]
        simp only [List.length_reverse, List.length_range]
        rw [List.getElem?_range (by omega), hfac]
    rw [hzip]
    rw [List.getElem?_eq_getElem hi]
    rfl

/-- C4 (amended): for a date `D+/D+/D{2,}` whose two-digit year (the last
two year digits) is outside the 10-19 table, verbalisation composes
`"nineteen {tens-word} {ones-word}"` from the tens table — whose `"0"`
entry is the token `"o"`, covering years 00-09 — and the ones table for
digits 1-9; but the ones table has no `"0"` entry, so a year whose ones
digit is the literal `0` (e.g. year 70) raises `KeyError` instead of
yielding any token. -/
theorem c4_year_verbalisation (d mo y : List Char) (dw mw : String)
    (hd : d ≠ []) (hdd : ∀ c ∈ d, c.isDigit) (hm : mo ≠ []) (hmd : ∀ c ∈ mo, c.isDigit)
    (hy : 2 ≤ y.length) (hyd : ∀ c ∈ y, c.isDigit)
    (hdw : dys (String.mk (lstrip0 d)) = some dw)
    (hmw : mths (String.mk (lstrip0 mo)) = some mw)
    (h19 : yrs_10to19 (String.mk (y.drop (y.length - 2))) = none) :
    (∀ tw ow, yrs_tens (String.mk ((y.drop (y.length - 2)).take 1)) = some tw →
        yrs_ones (String.mk ((y.drop (y.length - 2)).drop 1)) = some ow →
        normalise_dates (String.mk (d ++ '/' :: (mo ++ '/' :: y))) =
          .ok (mw ++ " " ++ dw ++ " nineteen " ++ tw ++ " " ++ ow)) ∧
    ((y.drop (y.length - 2)).drop 1 = ['0'] →
        normalise_dates (String.mk (d ++ '/' :: (mo ++ '/' :: y))) =
          .error SynthErr.keyErr) := by
  have hmatch := matchDateAnchored_canonical_year d mo y hd hdd hm hmd hy hyd
  constructor
  · intro tw ow htw how
    unfold normalise_dates
    rw [toList_mk, hmatch]
    simp only [hmw, hdw, h19, htw, how]
  · intro h0
    have hones : yrs_ones (String.mk ((y.drop (y.length - 2)).drop 1)) = none := by
      rw [h0]; decide
    unfold normalise_dates
    rw [toList_mk, hmatch]
    cases htw : yrs_tens (String.mk ((y.drop (y.length - 2)).take 1)) <;>
      simp only [hmw, hdw, h19, htw, hones]

/-- Witness for C4: year 73 verbalises, year 70 raises `KeyError`. -/
theorem c4_year_verbalisation_witness :
    normalise_dates (String.mk (['9'] ++ '/' :: (['3'] ++ '/' :: ['1', '9', '7', '3']))) =
      .ok "march ninth nineteen seventy three" ∧
    normalise_dates (String.mk (['9'] ++ '/' :: (['3'] ++ '/' :: ['1', '9', '7', '0']))) =
      .error SynthErr.keyErr := by
  constructor
  · exact ((c4_year_verbalisation ['9'] ['3'] ['1', '9', '7', '3'] "ninth" "march"
      (by decide) (by decide) (by decide) (by decide) (by decide) (by decide)
      (by decide) (by decide) (by decide)).1 "seventy" "three"
      (by decide) (by decide)).trans (by decide)
  · exact (c4_year_verbalisation ['9'] ['3'] ['1', '9', '7', '0'] "ninth" "march"
      (by decide) (by decide) (by decide) (by decide) (by decide) (by decide)
      (by decide) (by decide) (by decide)).2 (by decide)

/-- C10 (amended): for every phrase whose leftmost (greedy) date match has
a stripped day outside the 1-31 table or a stripped month outside the 1-12
table, `normalise_phrase` raises `KeyError` instead of returning a token
list.  (The universal form over every matching substring is refuted by the
counterexample: only the leftmost match is processed at each step.) -/
theorem c10_leftmost_bad_date_keyerror (phrase : String) (pre : List Char) (m : DateMatch)
    (h : searchDate phrase.toList = some (pre, m))
    (hbad : dys (String.mk (lstrip0 m.day)) = none ∨
      mths (String.mk (lstrip0 m.month)) = none) :
    normalise_phrase phrase = .error SynthErr.keyErr := by
  have hre := searchDate_reparse _ _ _ h
  have hnd : normalise_dates (String.mk m.g0) = .error SynthErr.keyErr := by
    unfold normalise_dates
    rw [toList_mk, hre]
    cases hy : m.year with
    | some y =>
        rcases hbad with hb | hb
        · cases hmw : mths (String.mk (lstrip0 m.month)) <;> simp only [hb, hmw]
        · simp only [hb]
    | none =>
        rcases hbad with hb | hb
        · cases hmw : mths (String.mk (lstrip0 m.month)) <;> simp only [hb, hmw]
        · simp only [hb]
  unfold normalise_phrase
  simp only [normGo, h, hnd]

/-- Witness for C10 at the phrase `"99/99"` (day 99 outside 1-31). -/
theorem c10_leftmost_bad_date_keyerror_witness :
    normalise_phrase "99/99" = .error SynthErr.keyErr :=
  c10_leftmost_bad_date_keyerror "99/99" []
    ⟨['9', '9', '/', '9', '9'], ['9', '9'], ['9', '9'], none, []⟩
    (by decide) (Or.inl (by decide))

/-- The lookup loop returns, for every token, the first pronunciation
variant of a known word and nothing for an unknown one, provided no known
word has an empty variant list. -/
theorem lookupPhones_ok (dict : Dict) (hne : ∀ w l, dict w = some l → l ≠ []) :
    ∀ toks : List String, lookupPhones dict toks =
      .ok ((toks.filterMap (fun w => (dict w).bind List.head?)).flatten) := by
  intro toks
  induction toks with
  | nil => rfl
  | cons w ws ih =>
      cases hw : dict w with
      | none => simp [lookupPhones, hw, List.filterMap_cons, ih]
      | some l =>
          cases l with
          | nil => exact absurd rfl (hne w [] hw)
          | cons v vs => simp [lookupPhones, hw, List.filterMap_cons, ih, Except.map]

/-- C8: when the normalised tokens of a phrase include a word absent from
the pronunciation dictionary, `get_phone_seq` raises nothing and returns
exactly the in-order concatenation of the first-variant phone sequences of
the present tokens; absent tokens contribute no phones.  (The hypothesis
that known words have a nonempty variant list reflects the CMU dictionary;
`dictionary[word][0]` on an empty entry would be an uncaught IndexError.) -/
theorem c8_oov_words_skipped (dict : Dict) (phrase : String) (toks : List String)
    (hn : normalise_phrase phrase = .ok toks)
    (_hoov : ∃ w ∈ toks, dict w = none)
    (hne : ∀ w l, dict w = some l → l ≠ []) :
    get_phone_seq dict phrase RMode.noRev =
      .ok ((toks.filterMap (fun w => (dict w).bind List.head?)).flatten) := by
  unfold get_phone_seq
  simp only [hn, lookupPhones_ok dict hne]
  rfl

/-- Witness for C8: two known words around the unknown `"b"`. -/
theorem c8_oov_words_skipped_witness :
    get_phone_seq dict0 "a b c" RMode.noRev = .ok ["AH0", "S", "IY1"] :=
  (c8_oov_words_skipped dict0 "a b c" ["a", "b", "c"] (by decide)
    ⟨"b", by decide, by decide⟩
    (fun w l h => by
      simp only [dict0] at h
      split at h
      · cases h; decide
      · split at h
        · cases h; decide
        · cases h)).trans (by decide)

/-- The code's read phase on the doubled two-entry `smooth_dip` of the
single-resolved-unit case is the self-overlap of the stored array. -/
theorem assemble_pair_self (u2 : Samples) (n : Nat) :
    assembleOverlapAdd n [u2, u2] =
      u2.take (u2.length - n) ++
        (List.zipWith (fun x y => x + y) (u2.drop (u2.length - n)) (u2.take n) ++
          u2.drop n) := by
  simp [assembleOverlapAdd, trimSegs, overlapSegs]

/-- C2 (amended): in crossfade mode, a key sequence resolving to zero units
raises an uncaught IndexError (`none`) rather than producing an empty
buffer (this part holds at every rate: the fault at `list_for_smoothing[0]`
precedes any slicing); at a rate of at least 100 (ramp window `N ≥ 1`,
where the slice model below is faithful), a key sequence resolving to the
single unit `u` (of at least `N` samples) does not return `u` unmodified:
both ramps are applied to the one stored array and the doubled `smooth_dip`
list overlaps it with itself, producing
`u2[:-N] ++ (u2[-N:] + u2[:N]) ++ u2[N:]` for
`u2 = head_ramp(tail_ramp(u))`, of length `2·len(u) − N`. -/
theorem c2_degenerate_behaviour :
    (∀ (inv : Inv) (phones : List String) (rate : Nat),
      resolvedKeys inv phones = [] → synthesise_smooth inv phones rate = none) ∧
    (∀ (inv : Inv) (phones : List String) (rate : Nat) (k : String) (u : Samples),
      100 ≤ rate →
      resolvedKeys inv phones = [k] → inv k = some u →
      affected_values rate ≤ u.length →
      (synthesise_smooth inv phones rate).map Prod.fst =
        some (c2SingleOut u (affected_values rate)) ∧
      (c2SingleOut u (affected_values rate)).length + affected_values rate =
        2 * u.length) := by
  constructor
  · intro inv phones rate h
    simp only [synthesise_smooth, h]
  · intro inv phones rate k u _hrate hk hu hn
    have hL : (tailRampF u (affected_values rate)).length = u.length := length_tailRampF _ _
    have h1 := rampAt_end_some inv k u (affected_values rate) hu hn
    have h2 := rampAt_beg_some (update inv k (tailRampF u (affected_values rate))) k
      (tailRampF u (affected_values rate)) (affected_values rate)
      (update_self _ _ _) (by rw [hL]; exact hn)
    have hrun : smoothPhase (affected_values rate) inv [k] =
        some (update (update inv k (tailRampF u (affected_values rate))) k
          (headRampF (tailRampF u (affected_values rate)) (affected_values rate))) := by
      simp only [smoothPhase, List.dropLast_nil, List.getLastD_nil, h1,
        Option.bind_some, Option.some_bind, bind, smoothMids, h2]
    constructor
    · simp only [synthesise_smooth, hk, hrun, Option.map_some', List.dropLast_nil,
        List.map_nil, List.nil_append, List.getLastD_nil, update_self, Option.getD_some]
      rw [assemble_pair_self]
      rfl
    · have hL2 : (headRampF (tailRampF u (affected_values rate))
          (affected_values rate)).length = u.length := by
        rw [length_headRampF, length_tailRampF]
      simp only [c2SingleOut, List.length_append, List.length_take, List.length_drop,
        List.length_zipWith, hL2]
      omega

/-- Witness for C2: an empty inventory faults on the empty resolution, and
the one-unit inventory `invOne` (unit `[8,8,8,8,8]`, rate 400, window 4)
produces the doubled self-overlap buffer of length `2·5 − 4 = 6`. -/
theorem c2_degenerate_behaviour_witness :
    synthesise_smooth (fun _ => none) [] 400 = none ∧
    (synthesise_smooth invOne [] 400).map Prod.fst =
      some (c2SingleOut [8, 8, 8, 8, 8] (affected_values 400)) ∧
    (c2SingleOut [8, 8, 8, 8, 8] (affected_values 400)).length + affected_values 400 =
      2 * ([8, 8, 8, 8, 8] : Samples).length := by
  refine ⟨c2_degenerate_behaviour.1 (fun _ => none) [] 400 (by decide), ?_, ?_⟩
  · exact (c2_degenerate_behaviour.2 invOne [] 400 "pau-pau.wav" [8, 8, 8, 8, 8]
      (by decide) (by decide) (by decide) (by decide)).1
  · exact (c2_degenerate_behaviour.2 invOne [] 400 "pau-pau.wav" [8, 8, 8, 8, 8]
      (by decide) (by decide) (by decide) (by decide)).2

/-- C6 (amended): in crossfade mode at a rate of at least 100 (ramp window
`N = int(rate/100) ≥ 1`, where the slice model is faithful), with at least
two resolved units, pairwise-distinct resolved keys and every unit at
least `2N` samples long, the call succeeds and its output is exactly the
overlap-add assembly of the per-unit ramped units (`specRamp`, §4.5 of the
design: tail ramp on all but the last, head ramp on all but the first);
every overlap segment — the elementwise sum of the tail-ramped last `N` of
the earlier unit and the head-ramped first `N` of the later — has exactly
`N` samples, and the total output length satisfies
`len(out) + (m−1)·N = Σ len(u_i)`. -/
theorem c6_crossfade_overlap_length (inv : Inv) (phones : List String) (rate : Nat)
    (_hrate : 100 ≤ rate)
    (hnd : (resolvedKeys inv phones).Nodup)
    (hm : 2 ≤ (resolvedKeys inv phones).length)
    (hu : ∀ k ∈ resolvedKeys inv phones,
      2 * affected_values rate ≤ ((inv k).getD []).length) :
    (synthesise_smooth inv phones rate).map Prod.fst =
      some (assembleOverlapAdd (affected_values rate)
        (specRamp (affected_values rate)
          ((resolvedKeys inv phones).map (fun k => (inv k).getD [])))) ∧
    (∀ seg ∈ overlapSegs (affected_values rate)
        (specRamp (affected_values rate)
          ((resolvedKeys inv phones).map (fun k => (inv k).getD []))),
      seg.length = affected_values rate) ∧
    (assembleOverlapAdd (affected_values rate)
        (specRamp (affected_values rate)
          ((resolvedKeys inv phones).map (fun k => (inv k).getD [])))).length +
      ((resolvedKeys inv phones).length - 1) * affected_values rate =
      (((resolvedKeys inv phones).map (fun k => (inv k).getD [])).map List.length).sum := by
  cases hks : resolvedKeys inv phones with
  | nil => rw [hks] at hm; simp at hm
  | cons k0 rest =>
    cases rest with
    | nil => rw [hks] at hm; simp at hm
    | cons k1 rest2 =>
      rw [hks] at hnd hu
      have hpres : ∀ k ∈ k0 :: k1 :: rest2,
          ∃ u, inv k = some u ∧ affected_values rate ≤ u.length := by
        intro k hk
        have hkres : k ∈ resolvedKeys inv phones := by rw [hks]; exact hk
        have hkres2 : k ∈ (phones_to_diphones phones).filter (fun k => (inv k).isSome) :=
          hkres
        have hsome : (inv k).isSome := (List.mem_filter.mp hkres2).2
        obtain ⟨u, hu2⟩ := Option.isSome_iff_exists.mp hsome
        have hlen := hu k hk
        rw [hu2] at hlen
        simp only [Option.getD_some] at hlen
        exact ⟨u, hu2, by omega⟩
      obtain ⟨inv2, hrun, hhead, hmid, hlast⟩ :=
        smoothPhase_spec (affected_values rate) inv k0 (k1 :: rest2) (by simp) hnd hpres
      obtain ⟨u0, hu0, hl0⟩ := hpres k0 (by simp)
      have hlastmem : (k1 :: rest2).getLastD k0 ∈ k0 :: k1 :: rest2 := by
        refine List.mem_cons.mpr (Or.inr ?_)
        rw [getLastD_cons_eq_getLast]
        exact List.getLast_mem _
      obtain ⟨ulast, hul, hll⟩ := hpres ((k1 :: rest2).getLastD k0) hlastmem
      have hread0 : inv2 k0 = some (tailRampF u0 (affected_values rate)) := by
        rw [hhead, hu0]; rfl
      have hreadlast : inv2 ((k1 :: rest2).getLastD k0) =
          some (headRampF ulast (affected_values rate)) := by
        rw [hlast, hul]; rfl
      have hspec : specRamp (affected_values rate)
          ((k0 :: k1 :: rest2).map (fun k => (inv k).getD [])) =
          tailRampF ((inv k0).getD []) (affected_values rate) ::
            ((k1 :: rest2).dropLast.map (fun k =>
              tailRampF (headRampF ((inv k).getD []) (affected_values rate))
                (affected_values rate)) ++
              [headRampF ((inv ((k1 :: rest2).getLastD k0)).getD [])
                (affected_values rate)]) := by
        show specRamp (affected_values rate)
            (((inv k0).getD []) :: ((inv k1).getD []) ::
              rest2.map (fun k => (inv k).getD [])) = _
        simp only [specRamp]
        congr 1
        congr 1
        · show (((k1 :: rest2).map (fun k => (inv k).getD [])).dropLast).map _ = _
          rw [← List.map_dropLast, List.map_map]
          rfl
        · show [headRampF (((k1 :: rest2).map (fun k => (inv k).getD [])).getLastD
            ((inv k0).getD [])) (affected_values rate)] = _
          congr 1
          exact congrArg (fun x => headRampF x (affected_values rate))
            (getLastD_map (fun k => (inv k).getD []) (k1 :: rest2) k0)
      have hdip :
          ((inv2 k0).getD []) ::
            ((k1 :: rest2).dropLast.map (fun k => (inv2 k).getD []) ++
              [((inv2 ((k1 :: rest2).getLastD k0)).getD [])]) =
          specRamp (affected_values rate)
            ((k0 :: k1 :: rest2).map (fun k => (inv k).getD [])) := by
        rw [hspec, hread0, hreadlast]
        simp only [Option.getD_some]
        rw [hu0, hul]
        simp only [Option.getD_some]
        congr 1
        congr 1
        apply List.map_congr_left
        intro k hk
        rw [hmid k hk]
        obtain ⟨u, hu3, -⟩ := hpres k
          (List.mem_cons.mpr (Or.inr (List.dropLast_subset _ hk)))
        rw [hu3]
        rfl
      have hulens : ∀ u ∈ (k0 :: k1 :: rest2).map (fun k => (inv k).getD []),
          2 * affected_values rate ≤ u.length := by
        intro u hu4
        obtain ⟨k, hk, rfl⟩ := List.mem_map.mp hu4
        exact hu k hk
      refine ⟨?_, ?_, ?_⟩
      · simp only [synthesise_smooth, hks, hrun, Option.map_some']
        rw [hdip]
      · intro seg hseg
        exact overlapSegs_len (affected_values rate) _
          (mem_specRamp_length _ _ (fun u hu5 => by have := hulens u hu5; omega))
          seg hseg
      · rw [hspec]
        have hlen := assemble_length (affected_values rate)
          ((k1 :: rest2).dropLast.map (fun k =>
            tailRampF (headRampF ((inv k).getD []) (affected_values rate))
              (affected_values rate)))
          (tailRampF ((inv k0).getD []) (affected_values rate))
          (headRampF ((inv ((k1 :: rest2).getLastD k0)).getD []) (affected_values rate))
          (by rw [length_tailRampF]; have := hu k0 (by simp); omega)
          (by rw [length_headRampF]; have := hu _ hlastmem; omega)
          (by
            intro w hw
            obtain ⟨k, hk, rfl⟩ := List.mem_map.mp hw
            rw [length_tailRampF, length_headRampF]
            exact hu k (List.mem_cons.mpr (Or.inr (List.dropLast_subset _ hk))))
        rw [List.cons_append] at hlen
        have hfac : ((k0 :: k1 :: rest2 : List String).length - 1) =
            ((k1 :: rest2).dropLast.map (fun k =>
              tailRampF (headRampF ((inv k).getD []) (affected_values rate))
                (affected_values rate))).length + 1 := by
          simp
        rw [hfac, hlen, length_tailRampF, length_headRampF]
        have hwmlens : (((k1 :: rest2).dropLast.map (fun k =>
            tailRampF (headRampF ((inv k).getD []) (affected_values rate))
              (affected_values rate))).map List.length) =
            (k1 :: rest2).dropLast.map (fun k => ((inv k).getD []).length) := by
          rw [List.map_map]
          apply List.map_congr_left
          intro k _
          simp [length_tailRampF, length_headRampF]
        rw [hwmlens]
        have hdec := dropLast_append_getLastD k1 rest2 k0
        have hsum : (((k0 :: k1 :: rest2).map (fun k => (inv k).getD [])).map
            List.length).sum =
            ((inv k0).getD []).length +
              ((((k1 :: rest2).dropLast.map (fun k => ((inv k).getD []).length)).sum) +
                ((inv ((k1 :: rest2).getLastD k0)).getD []).length) := by
          conv_lhs => rw [show (k0 :: k1 :: rest2 : List String) =
            k0 :: ((k1 :: rest2).dropLast ++ [(k1 :: rest2).getLastD k0]) from
            by rw [hdec]]
          simp only [List.map_cons, List.map_append, List.sum_cons, List.sum_append,
            List.map_map, List.sum_nil, List.map_nil]
          rfl
        rw [hsum]
        omega

/-- Witness for C6 on `inv6w` (three distinct resolved keys, units of
length 8, rate 300, window 3). -/
theorem c6_crossfade_overlap_length_witness :
    (synthesise_smooth inv6w ["t", "k"] 300).map Prod.fst =
      some (assembleOverlapAdd (affected_values 300)
        (specRamp (affected_values 300)
          ((resolvedKeys inv6w ["t", "k"]).map (fun k => (inv6w k).getD [])))) ∧
    (∀ seg ∈ overlapSegs (affected_values 300)
        (specRamp (affected_values 300)
          ((resolvedKeys inv6w ["t", "k"]).map (fun k => (inv6w k).getD []))),
      seg.length = affected_values 300) ∧
    (assembleOverlapAdd (affected_values 300)
        (specRamp (affected_values 300)
          ((resolvedKeys inv6w ["t", "k"]).map (fun k => (inv6w k).getD [])))).length +
      ((resolvedKeys inv6w ["t", "k"]).length - 1) * affected_values 300 =
      (((resolvedKeys inv6w ["t", "k"]).map (fun k => (inv6w k).getD [])).map
        List.length).sum :=
  c6_crossfade_overlap_length inv6w ["t", "k"] 300 (by decide) (by decide) (by decide)
    (by decide)

/-- Witness for C3 at `a = [100, 100]`, `n = 2`, `i = 1`. -/
theorem c3_tail_ramp_pointwise_witness :
    smooth_end [100, 100] 2 = some (tailRampF [100, 100] 2) ∧
    (tailRampF [100, 100] 2).length = ([100, 100] : Samples).length ∧
    (1 < ([100, 100] : Samples).length - 2 → (tailRampF [100, 100] 2)[1]? = ([100, 100] : Samples)[1]?) ∧
    (([100, 100] : Samples).length - 2 ≤ 1 → (tailRampF [100, 100] 2)[1]? =
      ([100, 100] : Samples)[1]?.map (fun x => truncScale x (([100, 100] : Samples).length - 1 - 1) 2)) :=
  c3_tail_ramp_pointwise [100, 100] 2 1 (by decide) (by decide)

end SynthPy
